import Mathlib

/-!
Shallow embedding of the contiguous memory allocator in `src/allocator.c`.

The C program keeps a singly linked list of `MemoryBlock` nodes ordered by
ascending `start_address`, covering `[0, total_memory_size)`.  Here the linked
list is a `List MemoryBlock` and each C function becomes a Lean function on
that list.  Pointer identity of a chosen block is represented by its index in
the list.
-/

namespace Alloc

/-- Embedding of `struct MemoryBlock` (minus the `next` pointer, which is the
list structure itself). -/
structure MemoryBlock where
  start_address : Nat
  size : Nat
  is_allocated : Bool
  process_id : String
  deriving Repr, DecidableEq

/-- Embedding of `initializeMemory`: one free block spanning the whole memory. -/
def initializeMemory (memory_size : Nat) : List MemoryBlock :=
  [{ start_address := 0, size := memory_size, is_allocated := false, process_id := "FREE" }]

/-- The test `current->is_allocated && strcmp(current->process_id, process_id) == 0`
in `releaseMemory`. -/
def matchesProcess (pid : String) (b : MemoryBlock) : Bool :=
  b.is_allocated && b.process_id == pid

/-- The two assignments `current->is_allocated = 0; strcpy(current->process_id, "FREE")`. -/
def setFree (b : MemoryBlock) : MemoryBlock :=
  { b with is_allocated := false, process_id := "FREE" }

/-- The trailing merge step of `releaseMemory`: if the block after `b` is free,
absorb its size into `b` and drop it. -/
def mergeNextFree (b : MemoryBlock) : List MemoryBlock → List MemoryBlock
  | [] => [b]
  | n :: rest =>
    if n.is_allocated then b :: n :: rest
    else { b with size := b.size + n.size } :: rest

/-- The scanning loop of `releaseMemory` once a predecessor `prev` exists.
On a match the block is freed, merged with `prev` when `prev` is free, and
then merged with its successor when that one is free. -/
def releaseGo (pid : String) (prev : MemoryBlock) : List MemoryBlock → List MemoryBlock
  | [] => [prev]
  | c :: rest =>
    if matchesProcess pid c then
      if prev.is_allocated then
        prev :: mergeNextFree (setFree c) rest
      else
        mergeNextFree { prev with size := prev.size + c.size } rest
    else
      prev :: releaseGo pid c rest

/-- Embedding of `releaseMemory`.  When the head matches there is no
predecessor (`prev == NULL`), so only the successor merge can happen. -/
def releaseMemory (pid : String) (blocks : List MemoryBlock) : List MemoryBlock :=
  match blocks with
  | [] => []
  | b :: rest =>
    if matchesProcess pid b then mergeNextFree (setFree b) rest
    else releaseGo pid b rest

/-- Embedding of `firstFit`, returning the index of the chosen block instead
of a pointer to it. -/
def firstFit (size : Nat) : List MemoryBlock → Option Nat
  | [] => none
  | b :: rest =>
    if !b.is_allocated && decide (size ≤ b.size) then some 0
    else (firstFit size rest).map (· + 1)

/-- The test `!best || current->size < best->size` in `bestFit`. -/
def smallerThan (b : MemoryBlock) : Option (Nat × MemoryBlock) → Bool
  | none => true
  | some p => decide (b.size < p.2.size)

/-- The loop of `bestFit`: `best` carries the index and the block the C code
holds through the `best` pointer, `i` is the index of the head of the
remaining list. -/
def bestFitGo (size : Nat) (best : Option (Nat × MemoryBlock)) (i : Nat) :
    List MemoryBlock → Option (Nat × MemoryBlock)
  | [] => best
  | b :: rest =>
    if !b.is_allocated && decide (size ≤ b.size) && smallerThan b best then
      bestFitGo size (some (i, b)) (i + 1) rest
    else
      bestFitGo size best (i + 1) rest

/-- Embedding of `bestFit` (index of the block the returned pointer denotes). -/
def bestFit (size : Nat) (blocks : List MemoryBlock) : Option Nat :=
  (bestFitGo size none 0 blocks).map Prod.fst

/-- The test `!worst || current->size > worst->size` in `worstFit`. -/
def largerThan (b : MemoryBlock) : Option (Nat × MemoryBlock) → Bool
  | none => true
  | some p => decide (p.2.size < b.size)

/-- The loop of `worstFit`, same shape as `bestFitGo` with the comparison
reversed. -/
def worstFitGo (size : Nat) (worst : Option (Nat × MemoryBlock)) (i : Nat) :
    List MemoryBlock → Option (Nat × MemoryBlock)
  | [] => worst
  | b :: rest =>
    if !b.is_allocated && decide (size ≤ b.size) && largerThan b worst then
      worstFitGo size (some (i, b)) (i + 1) rest
    else
      worstFitGo size worst (i + 1) rest

/-- Embedding of `worstFit`. -/
def worstFit (size : Nat) (blocks : List MemoryBlock) : Option Nat :=
  (worstFitGo size none 0 blocks).map Prod.fst

/-- The `switch (strategy)` of `requestMemory`: any character other than
`F`, `B`, `W` leaves `block = NULL`. -/
def selectBlock (strategy : Char) (size : Nat) (blocks : List MemoryBlock) : Option Nat :=
  match strategy with
  | 'F' => firstFit size blocks
  | 'B' => bestFit size blocks
  | 'W' => worstFit size blocks
  | _ => none

/-- The allocation body of `requestMemory` on the chosen block: split when the
block is strictly larger than the request, then relabel it allocated. -/
def splitAlloc (pid : String) (size : Nat) (b : MemoryBlock) : List MemoryBlock :=
  if size < b.size then
    [{ b with size := size, is_allocated := true, process_id := pid },
     { start_address := b.start_address + size, size := b.size - size,
       is_allocated := false, process_id := "FREE" }]
  else
    [{ b with is_allocated := true, process_id := pid }]

/-- Apply `splitAlloc` at index `i` of the list (the C code mutates the node
the fit function returned a pointer to). -/
def allocAt (pid : String) (size : Nat) : Nat → List MemoryBlock → List MemoryBlock
  | _, [] => []
  | 0, b :: rest => splitAlloc pid size b ++ rest
  | i + 1, b :: rest => b :: allocAt pid size i rest

/-- Embedding of `requestMemory`.  The boolean is `true` when a block was
found and allocated and `false` when the code prints
`Failed to allocate memory: insufficient space` and changes nothing. -/
def requestMemory (pid : String) (size : Nat) (strategy : Char)
    (blocks : List MemoryBlock) : Bool × List MemoryBlock :=
  match selectBlock strategy size blocks with
  | none => (false, blocks)
  | some i => (true, allocAt pid size i blocks)

/-- The first loop of `compactMemory`: slide every allocated block's start to
the running cursor; returns the rewritten list and the final cursor
(`next_free_address`). -/
def compactMove (cursor : Nat) : List MemoryBlock → List MemoryBlock × Nat
  | [] => ([], cursor)
  | b :: rest =>
    if b.is_allocated then
      ({ b with start_address := cursor } :: (compactMove (cursor + b.size) rest).1,
        (compactMove (cursor + b.size) rest).2)
    else
      (b :: (compactMove cursor rest).1, (compactMove cursor rest).2)

/-- Embedding of `compactMemory`: move allocated blocks down, drop every free
block, and append one trailing free block when space remains. -/
def compactMemory (total : Nat) (blocks : List MemoryBlock) : List MemoryBlock :=
  if (compactMove 0 blocks).2 < total then
    (compactMove 0 blocks).1.filter (fun b => b.is_allocated) ++
      [{ start_address := (compactMove 0 blocks).2,
         size := total - (compactMove 0 blocks).2,
         is_allocated := false, process_id := "FREE" }]
  else
    (compactMove 0 blocks).1.filter (fun b => b.is_allocated)

/-! ### Invariants (spec §3) -/

/-- Invariant 1 relative to a running address: the blocks tile
`[a, total)` contiguously in order. -/
def partitionFrom (a total : Nat) : List MemoryBlock → Bool
  | [] => a == total
  | b :: rest => (b.start_address == a) && partitionFrom (a + b.size) total rest

/-- Invariant 2: no two adjacent blocks are both free. -/
def noAdjacentFree : List MemoryBlock → Bool
  | [] => true
  | [_] => true
  | b :: c :: rest => (b.is_allocated || c.is_allocated) && noAdjacentFree (c :: rest)

/-- Invariant 3: every block has strictly positive size. -/
def allSizesPos (blocks : List MemoryBlock) : Bool :=
  blocks.all (fun b => decide (0 < b.size))

/-- Spec invariants 1–3 together. -/
def invariants (total : Nat) (blocks : List MemoryBlock) : Prop :=
  partitionFrom 0 total blocks = true ∧ noAdjacentFree blocks = true ∧
    allSizesPos blocks = true

/-! ### Operation sequences (for the invariant-preservation claim) -/

/-- One engine call, as issued by the command loop. -/
inductive Op where
  | request (pid : String) (size : Nat) (strategy : Char)
  | release (pid : String)
  | compact
  deriving Repr, DecidableEq

/-- Execute one operation on the block list. -/
def applyOp (total : Nat) (blocks : List MemoryBlock) : Op → List MemoryBlock
  | .request pid size strategy => (requestMemory pid size strategy blocks).2
  | .release pid => releaseMemory pid blocks
  | .compact => compactMemory total blocks

/-- Execute a sequence of operations left to right. -/
def runOps (total : Nat) (blocks : List MemoryBlock) : List Op → List MemoryBlock
  | [] => blocks
  | op :: ops => runOps total (applyOp total blocks op) ops

/-- The side conditions of claim C1 on a call: requests carry a positive size
and one of the three strategy letters. -/
def validOp : Op → Prop
  | .request _ size strategy => 0 < size ∧ (strategy = 'F' ∨ strategy = 'B' ∨ strategy = 'W')
  | .release _ => True
  | .compact => True

/-- Observable content of a block: start, size, and its label (`none` for a
free block, `some pid` for an owned one).  Spec §3 calls this the block's
`owner`. -/
def blockView (b : MemoryBlock) : Nat × Nat × Option String :=
  (b.start_address, b.size, if b.is_allocated then some b.process_id else none)

/-- Observable content of the whole list. -/
def stateView (blocks : List MemoryBlock) : List (Nat × Nat × Option String) :=
  blocks.map blockView

/-- Sum of the sizes of a list of blocks. -/
def sumSizes (blocks : List MemoryBlock) : Nat :=
  (blocks.map (fun b => b.size)).sum

/-! ### Basic lemmas about the search routines -/

theorem firstFit_sound (size : Nat) :
    ∀ (blocks : List MemoryBlock) (i : Nat), firstFit size blocks = some i →
      ∃ b, blocks.get? i = some b ∧ b.is_allocated = false ∧ size ≤ b.size := by
  intro blocks
  induction blocks with
  | nil => intro i h; simp [firstFit] at h
  | cons b rest ih =>
    intro i h
    rw [firstFit] at h
    by_cases hc : (!b.is_allocated && decide (size ≤ b.size)) = true
    · rw [if_pos hc] at h
      simp only [Bool.and_eq_true, Bool.not_eq_true', decide_eq_true_eq] at hc
      cases h
      exact ⟨b, rfl, hc.1, hc.2⟩
    · rw [if_neg hc] at h
      rcases Option.map_eq_some'.mp h with ⟨j, hj, hji⟩
      rcases ih j hj with ⟨c, hc1, hc2, hc3⟩
      exact ⟨c, by simpa [← hji] using hc1, hc2, hc3⟩

theorem firstFit_none (size : Nat) :
    ∀ (blocks : List MemoryBlock),
      (∀ b ∈ blocks, b.is_allocated = false → b.size < size) →
      firstFit size blocks = none := by
  intro blocks
  induction blocks with
  | nil => intro _; rfl
  | cons b rest ih =>
    intro h
    rw [firstFit]
    have hb : ¬ (!b.is_allocated && decide (size ≤ b.size)) = true := by
      simp only [Bool.and_eq_true, Bool.not_eq_true', decide_eq_true_eq]
      rintro ⟨h1, h2⟩
      exact absurd h2 (Nat.not_le.mpr (h b (List.mem_cons_self b rest) h1))
    rw [if_neg hb, ih (fun c hc => h c (List.mem_cons_of_mem b hc))]
    rfl

theorem bestFitGo_none (size : Nat) :
    ∀ (blocks : List MemoryBlock) (i : Nat),
      (∀ b ∈ blocks, b.is_allocated = false → b.size < size) →
      bestFitGo size none i blocks = none := by
  intro blocks
  induction blocks with
  | nil => intro _ _; rfl
  | cons b rest ih =>
    intro i h
    rw [bestFitGo]
    have hb : ¬ (!b.is_allocated && decide (size ≤ b.size) && smallerThan b none) = true := by
      simp only [Bool.and_eq_true, Bool.not_eq_true', decide_eq_true_eq, smallerThan, and_true]
      rintro ⟨h1, h2⟩
      exact absurd h2 (Nat.not_le.mpr (h b (List.mem_cons_self b rest) h1))
    rw [if_neg hb]
    exact ih (i + 1) (fun c hc => h c (List.mem_cons_of_mem b hc))

theorem worstFitGo_none (size : Nat) :
    ∀ (blocks : List MemoryBlock) (i : Nat),
      (∀ b ∈ blocks, b.is_allocated = false → b.size < size) →
      worstFitGo size none i blocks = none := by
  intro blocks
  induction blocks with
  | nil => intro _ _; rfl
  | cons b rest ih =>
    intro i h
    rw [worstFitGo]
    have hb : ¬ (!b.is_allocated && decide (size ≤ b.size) && largerThan b none) = true := by
      simp only [Bool.and_eq_true, Bool.not_eq_true', decide_eq_true_eq, largerThan, and_true]
      rintro ⟨h1, h2⟩
      exact absurd h2 (Nat.not_le.mpr (h b (List.mem_cons_self b rest) h1))
    rw [if_neg hb]
    exact ih (i + 1) (fun c hc => h c (List.mem_cons_of_mem b hc))

/-! ### Compaction lemmas -/

/-- Repacking, stated the way spec §4.1 describes the compaction result: each
block keeps its size and label and is moved so that its new start is the sum
of the sizes of the blocks before it (plus the initial cursor). -/
def repackOwned (cursor : Nat) : List MemoryBlock → List MemoryBlock
  | [] => []
  | b :: rest => { b with start_address := cursor } :: repackOwned (cursor + b.size) rest

theorem compactMove_cursor :
    ∀ (blocks : List MemoryBlock) (cursor : Nat),
      (compactMove cursor blocks).2 =
        cursor + sumSizes (blocks.filter (fun b => b.is_allocated)) := by
  intro blocks
  induction blocks with
  | nil => intro cursor; simp [compactMove, sumSizes]
  | cons b rest ih =>
    intro cursor
    cases hb : b.is_allocated
    · simp only [compactMove, hb, Bool.false_eq_true, if_false, ih, List.filter_cons, hb]
    · simp only [compactMove, hb, if_true, ih, List.filter_cons, sumSizes, List.map_cons,
        List.sum_cons]
      omega

theorem compactMove_filter :
    ∀ (blocks : List MemoryBlock) (cursor : Nat),
      (compactMove cursor blocks).1.filter (fun b => b.is_allocated) =
        repackOwned cursor (blocks.filter (fun b => b.is_allocated)) := by
  intro blocks
  induction blocks with
  | nil => intro cursor; simp [compactMove, repackOwned]
  | cons b rest ih =>
    intro cursor
    cases hb : b.is_allocated
    · simp only [compactMove, hb, Bool.false_eq_true, if_false, List.filter_cons, hb, ih]
    · simp only [compactMove, hb, if_true, List.filter_cons, repackOwned, ih]

/-- The shape of `compactMemory`: filter the owned blocks, repack them from 0,
optionally append the trailing free block. -/
theorem compactMemory_eq (total : Nat) (blocks : List MemoryBlock) :
    compactMemory total blocks =
      repackOwned 0 (blocks.filter (fun b => b.is_allocated)) ++
        (if sumSizes (blocks.filter (fun b => b.is_allocated)) < total then
          [{ start_address := sumSizes (blocks.filter (fun b => b.is_allocated)),
             size := total - sumSizes (blocks.filter (fun b => b.is_allocated)),
             is_allocated := false, process_id := "FREE" }]
         else []) := by
  unfold compactMemory
  rw [compactMove_filter, compactMove_cursor]
  simp only [Nat.zero_add]
  split
  · rfl
  · simp

theorem partitionFrom_sum :
    ∀ (blocks : List MemoryBlock) (a total : Nat),
      partitionFrom a total blocks = true → a + sumSizes blocks = total := by
  intro blocks
  induction blocks with
  | nil => intro a total h; simpa [partitionFrom, sumSizes] using h
  | cons b rest ih =>
    intro a total h
    rw [partitionFrom, Bool.and_eq_true] at h
    have := ih (a + b.size) total h.2
    simp only [sumSizes, List.map_cons, List.sum_cons] at this ⊢
    omega

theorem sumSizes_filter_le (p : MemoryBlock → Bool) :
    ∀ (blocks : List MemoryBlock), sumSizes (blocks.filter p) ≤ sumSizes blocks := by
  intro blocks
  induction blocks with
  | nil => simp [sumSizes]
  | cons b rest ih =>
    by_cases hb : p b
    · simpa [List.filter_cons_of_pos hb, sumSizes] using ih
    · simp only [List.filter_cons_of_neg (by simpa using hb), sumSizes, List.map_cons,
        List.sum_cons]
      calc (List.map (fun b => b.size) (rest.filter p)).sum ≤
          (List.map (fun b => b.size) rest).sum := ih
        _ ≤ b.size + (List.map (fun b => b.size) rest).sum := Nat.le_add_left _ _

theorem repackOwned_sumSizes :
    ∀ (blocks : List MemoryBlock) (cursor : Nat),
      sumSizes (repackOwned cursor blocks) = sumSizes blocks := by
  intro blocks
  induction blocks with
  | nil => intro cursor; rfl
  | cons b rest ih =>
    intro cursor
    have h := ih (cursor + b.size)
    simp only [repackOwned, sumSizes, List.map_cons, List.sum_cons] at h ⊢
    omega

theorem repackOwned_filter_alloc :
    ∀ (blocks : List MemoryBlock) (cursor : Nat),
      (∀ b ∈ blocks, b.is_allocated = true) →
      (repackOwned cursor blocks).filter (fun b => b.is_allocated) =
        repackOwned cursor blocks := by
  intro blocks
  induction blocks with
  | nil => intro cursor _; rfl
  | cons b rest ih =>
    intro cursor h
    have hb : b.is_allocated = true := h b (List.mem_cons_self b rest)
    simp only [repackOwned, List.filter_cons_of_pos (show ({ b with start_address := cursor } :
      MemoryBlock).is_allocated = true from hb)]
    rw [ih (cursor + b.size) (fun c hc => h c (List.mem_cons_of_mem b hc))]

theorem repackOwned_repackOwned :
    ∀ (blocks : List MemoryBlock) (cursor : Nat),
      repackOwned cursor (repackOwned cursor blocks) = repackOwned cursor blocks := by
  intro blocks
  induction blocks with
  | nil => intro cursor; rfl
  | cons b rest ih => intro cursor; simp only [repackOwned, ih]

/-! ### Claim theorems: compaction -/

/-- C2: compaction keeps exactly the owned blocks, in their original relative
order, repacked contiguously from address 0 (each new start is the sum of the
sizes of the owned blocks before it, which is what `repackOwned 0` builds),
followed by a single free block covering the rest of memory, omitted exactly
when the owned sizes already sum to `total`. -/
theorem compactMemory_spec (total : Nat) (blocks : List MemoryBlock)
    (hinv : invariants total blocks) :
    compactMemory total blocks =
      repackOwned 0 (blocks.filter (fun b => b.is_allocated)) ++
        (if sumSizes (blocks.filter (fun b => b.is_allocated)) = total then []
         else
          [{ start_address := sumSizes (blocks.filter (fun b => b.is_allocated)),
             size := total - sumSizes (blocks.filter (fun b => b.is_allocated)),
             is_allocated := false, process_id := "FREE" }]) := by
  have hle : sumSizes (blocks.filter (fun b => b.is_allocated)) ≤ total := by
    have h1 := partitionFrom_sum blocks 0 total hinv.1
    have h2 := sumSizes_filter_le (fun b => b.is_allocated) blocks
    omega
  rw [compactMemory_eq]
  by_cases h : sumSizes (blocks.filter (fun b => b.is_allocated)) = total
  · rw [if_neg (by omega), if_pos h]
  · rw [if_pos (by omega), if_neg h]

/-- A small concrete state used by several witnesses: one owned block between
two free ones, in a memory of 100 bytes. -/
def sampleBlocks : List MemoryBlock :=
  [{ start_address := 0, size := 30, is_allocated := false, process_id := "FREE" },
   { start_address := 30, size := 20, is_allocated := true, process_id := "P2" },
   { start_address := 50, size := 50, is_allocated := false, process_id := "FREE" }]

/-- C2 witness: a state with one owned and two free blocks. -/
theorem compactMemory_spec_witness :
    invariants 100 sampleBlocks ∧
    compactMemory 100 sampleBlocks =
      repackOwned 0 (sampleBlocks.filter (fun b => b.is_allocated)) ++
        (if sumSizes (sampleBlocks.filter (fun b => b.is_allocated)) = 100 then []
         else
          [{ start_address := sumSizes (sampleBlocks.filter (fun b => b.is_allocated)),
             size := 100 - sumSizes (sampleBlocks.filter (fun b => b.is_allocated)),
             is_allocated := false, process_id := "FREE" }]) :=
  ⟨⟨by decide, by decide, by decide⟩,
    compactMemory_spec 100 sampleBlocks ⟨by decide, by decide, by decide⟩⟩

/-- C7: compaction is idempotent on every state satisfying the invariants. -/
theorem compactMemory_idempotent (total : Nat) (blocks : List MemoryBlock)
    (hinv : invariants total blocks) :
    compactMemory total (compactMemory total blocks) = compactMemory total blocks := by
  clear hinv
  rw [compactMemory_eq total blocks]
  set owned := blocks.filter (fun b => b.is_allocated) with howned
  have hall : ∀ b ∈ owned, b.is_allocated = true := fun b hb => (List.mem_filter.mp hb).2
  have htail : (if sumSizes owned < total then
      [{ start_address := sumSizes owned, size := total - sumSizes owned,
         is_allocated := false, process_id := "FREE" }] else
        ([] : List MemoryBlock)).filter (fun b => b.is_allocated) = [] := by
    split <;> simp
  rw [compactMemory_eq, List.filter_append, repackOwned_filter_alloc owned 0 hall, htail,
    List.append_nil, repackOwned_sumSizes, repackOwned_repackOwned]

/-- C7 witness. -/
theorem compactMemory_idempotent_witness :
    invariants 100 sampleBlocks ∧
    compactMemory 100 (compactMemory 100 sampleBlocks) = compactMemory 100 sampleBlocks :=
  ⟨⟨by decide, by decide, by decide⟩,
    compactMemory_idempotent 100 sampleBlocks ⟨by decide, by decide, by decide⟩⟩

/-! ### Characterization of the placement searches -/

/-- A block the search loops may select: free and large enough. -/
def isCandidate (size : Nat) (b : MemoryBlock) : Prop :=
  b.is_allocated = false ∧ size ≤ b.size

theorem bestFitGo_shape (size : Nat) :
    ∀ (blocks : List MemoryBlock) (acc : Option (Nat × MemoryBlock)) (i : Nat),
      bestFitGo size acc i blocks = acc ∨
        ∃ k b, blocks.get? k = some b ∧ isCandidate size b ∧
          bestFitGo size acc i blocks = some (i + k, b) := by
  intro blocks
  induction blocks with
  | nil => intro acc i; exact Or.inl rfl
  | cons c rest ih =>
    intro acc i
    rw [bestFitGo]
    split
    · rename_i hc
      simp only [Bool.and_eq_true, Bool.not_eq_true', decide_eq_true_eq] at hc
      rcases ih (some (i, c)) (i + 1) with h | ⟨k, b, hk, hcand, hres⟩
      · exact Or.inr ⟨0, c, rfl, ⟨hc.1.1, hc.1.2⟩, by rw [h, Nat.add_zero]⟩
      · refine Or.inr ⟨k + 1, b, hk, hcand, ?_⟩
        rw [hres]
        congr 2
        omega
    · rcases ih acc (i + 1) with h | ⟨k, b, hk, hcand, hres⟩
      · exact Or.inl h
      · refine Or.inr ⟨k + 1, b, hk, hcand, ?_⟩
        rw [hres]
        congr 2
        omega

theorem bestFitGo_some_acc (size : Nat) :
    ∀ (blocks : List MemoryBlock) (p : Nat × MemoryBlock) (i : Nat),
      ∃ q, bestFitGo size (some p) i blocks = some q := by
  intro blocks
  induction blocks with
  | nil => intro p i; exact ⟨p, rfl⟩
  | cons c rest ih =>
    intro p i
    rw [bestFitGo]
    split
    · exact ih (i, c) (i + 1)
    · exact ih p (i + 1)

theorem bestFitGo_improves (size : Nat) :
    ∀ (blocks : List MemoryBlock) (p : Nat × MemoryBlock) (i j : Nat) (b : MemoryBlock),
      bestFitGo size (some p) i blocks = some (j, b) →
      (j, b) = p ∨ (b.size < p.2.size ∧ i ≤ j) := by
  intro blocks
  induction blocks with
  | nil =>
    intro p i j b h
    exact Or.inl (Option.some.inj h).symm
  | cons c rest ih =>
    intro p i j b h
    rw [bestFitGo] at h
    split at h
    · rename_i hc
      simp only [Bool.and_eq_true, Bool.not_eq_true', smallerThan, decide_eq_true_eq] at hc
      rcases ih (i, c) (i + 1) j b h with heq | ⟨hlt, hle⟩
      · have hj : j = i := congrArg Prod.fst heq
        have hb : b = c := congrArg Prod.snd heq
        exact Or.inr ⟨by rw [hb]; exact hc.2, by omega⟩
      · exact Or.inr ⟨Nat.lt_trans hlt hc.2, by omega⟩
    · rcases ih p (i + 1) j b h with heq | ⟨hlt, hle⟩
      · exact Or.inl heq
      · exact Or.inr ⟨hlt, by omega⟩

theorem bestFitGo_complete (size : Nat) :
    ∀ (blocks : List MemoryBlock) (acc : Option (Nat × MemoryBlock)) (i : Nat),
      (∃ c ∈ blocks, isCandidate size c) →
      ∃ q, bestFitGo size acc i blocks = some q := by
  intro blocks
  induction blocks with
  | nil => intro acc i h; simp at h
  | cons c rest ih =>
    intro acc i hex
    rw [bestFitGo]
    split
    · exact bestFitGo_some_acc size rest (i, c) (i + 1)
    · rename_i hc
      cases acc with
      | some p => exact bestFitGo_some_acc size rest p (i + 1)
      | none =>
        refine ih none (i + 1) ?_
        rcases hex with ⟨d, hd, hcand⟩
        rcases List.mem_cons.mp hd with rfl | hd'
        · exfalso
          apply hc
          simp [smallerThan, hcand.1, hcand.2]
        · exact ⟨d, hd', hcand⟩

theorem bestFitGo_min (size : Nat) :
    ∀ (blocks : List MemoryBlock) (acc : Option (Nat × MemoryBlock)) (i j : Nat)
      (b : MemoryBlock),
      bestFitGo size acc i blocks = some (j, b) →
      ∀ c ∈ blocks, isCandidate size c → b.size ≤ c.size := by
  intro blocks
  induction blocks with
  | nil => intro acc i j b _ c hc; simp at hc
  | cons c0 rest ih =>
    intro acc i j b h c hc hcand
    rw [bestFitGo] at h
    split at h
    · rcases List.mem_cons.mp hc with rfl | hc'
      · rcases bestFitGo_improves size rest (i, c) (i + 1) j b h with heq | ⟨hlt, _⟩
        · have hb : b = c := congrArg Prod.snd heq
          rw [hb]
        · exact Nat.le_of_lt hlt
      · exact ih (some (i, c0)) (i + 1) j b h c hc' hcand
    · rename_i hcond
      cases acc with
      | none =>
        rcases List.mem_cons.mp hc with rfl | hc'
        · exfalso
          apply hcond
          simp [smallerThan, hcand.1, hcand.2]
        · exact ih none (i + 1) j b h c hc' hcand
      | some p =>
        rcases List.mem_cons.mp hc with rfl | hc'
        · have hple : p.2.size ≤ c.size := by
            by_contra hgt
            apply hcond
            simp only [Bool.and_eq_true, Bool.not_eq_true', smallerThan, decide_eq_true_eq]
            exact ⟨⟨hcand.1, hcand.2⟩, by omega⟩
          rcases bestFitGo_improves size rest p (i + 1) j b h with heq | ⟨hlt, _⟩
          · have hb : b = p.2 := congrArg Prod.snd heq
            rw [hb]; exact hple
          · exact Nat.le_of_lt (Nat.lt_of_lt_of_le hlt hple)
        · exact ih (some p) (i + 1) j b h c hc' hcand

theorem bestFitGo_first_of_ties (size : Nat) :
    ∀ (blocks : List MemoryBlock) (acc : Option (Nat × MemoryBlock)) (i j : Nat)
      (b : MemoryBlock),
      (∀ p, acc = some p → p.1 < i) →
      bestFitGo size acc i blocks = some (j, b) →
      ∀ k c, blocks.get? k = some c → isCandidate size c → i + k < j → b.size < c.size := by
  intro blocks
  induction blocks with
  | nil => intro acc i j b _ _ k c hk; simp at hk
  | cons c0 rest ih =>
    intro acc i j b hacc h k c hk hcand hkj
    rw [bestFitGo] at h
    split at h
    · cases k with
      | zero =>
        have hc : c0 = c := by simpa using hk
        subst hc
        rcases bestFitGo_improves size rest (i, c0) (i + 1) j b h with heq | ⟨hlt, _⟩
        · have hj : j = i := congrArg Prod.fst heq
          omega
        · exact hlt
      | succ k' =>
        refine ih (some (i, c0)) (i + 1) j b ?_ h k' c (by simpa using hk) hcand (by omega)
        intro p hp
        cases hp
        omega
    · rename_i hcond
      cases k with
      | zero =>
        have hc : c0 = c := by simpa using hk
        subst hc
        cases acc with
        | none =>
          exfalso
          apply hcond
          simp [smallerThan, hcand.1, hcand.2]
        | some p =>
          have hple : p.2.size ≤ c0.size := by
            by_contra hgt
            apply hcond
            simp only [Bool.and_eq_true, Bool.not_eq_true', smallerThan, decide_eq_true_eq]
            exact ⟨⟨hcand.1, hcand.2⟩, by omega⟩
          rcases bestFitGo_improves size rest p (i + 1) j b h with heq | ⟨hlt, _⟩
          · have hj : j = p.1 := congrArg Prod.fst heq
            have := hacc p rfl
            omega
          · exact Nat.lt_of_lt_of_le hlt hple
      | succ k' =>
        refine ih acc (i + 1) j b ?_ h k' c (by simpa using hk) hcand (by omega)
        intro p hp
        have := hacc p hp
        omega

theorem worstFitGo_shape (size : Nat) :
    ∀ (blocks : List MemoryBlock) (acc : Option (Nat × MemoryBlock)) (i : Nat),
      worstFitGo size acc i blocks = acc ∨
        ∃ k b, blocks.get? k = some b ∧ isCandidate size b ∧
          worstFitGo size acc i blocks = some (i + k, b) := by
  intro blocks
  induction blocks with
  | nil => intro acc i; exact Or.inl rfl
  | cons c rest ih =>
    intro acc i
    rw [worstFitGo]
    split
    · rename_i hc
      simp only [Bool.and_eq_true, Bool.not_eq_true', decide_eq_true_eq] at hc
      rcases ih (some (i, c)) (i + 1) with h | ⟨k, b, hk, hcand, hres⟩
      · exact Or.inr ⟨0, c, rfl, ⟨hc.1.1, hc.1.2⟩, by rw [h, Nat.add_zero]⟩
      · refine Or.inr ⟨k + 1, b, hk, hcand, ?_⟩
        rw [hres]
        congr 2
        omega
    · rcases ih acc (i + 1) with h | ⟨k, b, hk, hcand, hres⟩
      · exact Or.inl h
      · refine Or.inr ⟨k + 1, b, hk, hcand, ?_⟩
        rw [hres]
        congr 2
        omega

/-- Any index returned by the strategy switch points at a free block that is
large enough. -/
theorem selectBlock_sound (strategy : Char) (size : Nat) (blocks : List MemoryBlock)
    (i : Nat) (h : selectBlock strategy size blocks = some i) :
    ∃ b, blocks.get? i = some b ∧ b.is_allocated = false ∧ size ≤ b.size := by
  unfold selectBlock at h
  split at h
  · exact firstFit_sound size blocks i h
  · unfold bestFit at h
    rcases Option.map_eq_some'.mp h with ⟨⟨j, b⟩, hres, hj⟩
    rcases bestFitGo_shape size blocks none 0 with hn | ⟨k, c, hk, hcand, hres'⟩
    · rw [hn] at hres; cases hres
    · rw [hres'] at hres
      have hpair := Option.some.inj hres
      have hjk : j = k := by simpa using congrArg Prod.fst hpair.symm
      have hbc : c = b := by simpa using congrArg Prod.snd hpair
      subst hjk
      cases hj
      exact ⟨c, by simpa using hk, hcand.1, hcand.2⟩
  · unfold worstFit at h
    rcases Option.map_eq_some'.mp h with ⟨⟨j, b⟩, hres, hj⟩
    rcases worstFitGo_shape size blocks none 0 with hn | ⟨k, c, hk, hcand, hres'⟩
    · rw [hn] at hres; cases hres
    · rw [hres'] at hres
      have hpair := Option.some.inj hres
      have hjk : j = k := by simpa using congrArg Prod.fst hpair.symm
      have hbc : c = b := by simpa using congrArg Prod.snd hpair
      subst hjk
      cases hj
      exact ⟨c, by simpa using hk, hcand.1, hcand.2⟩
  · cases h

/-- C5: when at least one free block is large enough, `bestFit` picks a free
block of size at least the request, of minimal size among all such blocks,
and — on ties — the first such block in list order (every earlier candidate
is strictly larger). -/
theorem bestFit_spec (size : Nat) (blocks : List MemoryBlock)
    (hex : ∃ c ∈ blocks, c.is_allocated = false ∧ size ≤ c.size) :
    ∃ j b, bestFit size blocks = some j ∧ blocks.get? j = some b ∧
      b.is_allocated = false ∧ size ≤ b.size ∧
      (∀ k c, blocks.get? k = some c → c.is_allocated = false → size ≤ c.size →
        b.size ≤ c.size ∧ (k < j → b.size < c.size)) := by
  rcases bestFitGo_complete size blocks none 0 hex with ⟨⟨j, b⟩, hres⟩
  rcases bestFitGo_shape size blocks none 0 with hn | ⟨k, c, hk, hcand, hres'⟩
  · rw [hn] at hres; cases hres
  · rw [hres'] at hres
    have hpair := Option.some.inj hres
    have hjk : j = k := by simpa using congrArg Prod.fst hpair.symm
    have hbc : c = b := by simpa using congrArg Prod.snd hpair
    subst hjk
    subst hbc
    have hres2 : bestFitGo size none 0 blocks = some (j, c) := by
      rw [hres']
      norm_num
    refine ⟨j, c, ?_, by simpa using hk, hcand.1, hcand.2, ?_⟩
    · unfold bestFit
      rw [hres2]
      rfl
    · intro k' d hk' hd hsz
      constructor
      · exact bestFitGo_min size blocks none 0 j c hres2 d (List.get?_mem hk') ⟨hd, hsz⟩
      · intro hlt
        exact bestFitGo_first_of_ties size blocks none 0 j c
          (by intro p hp; cases hp) hres2 k' d hk' ⟨hd, hsz⟩ (by omega)

/-- C5 witness: two candidates of sizes 30 and 50; best fit picks the block
of size 30 at index 0. -/
theorem bestFit_spec_witness :
    (∃ c ∈ sampleBlocks, c.is_allocated = false ∧ 10 ≤ c.size) ∧
      (∃ j b, bestFit 10 sampleBlocks = some j ∧ sampleBlocks.get? j = some b ∧
        b.is_allocated = false ∧ 10 ≤ b.size ∧
        (∀ k c, sampleBlocks.get? k = some c → c.is_allocated = false → 10 ≤ c.size →
          b.size ≤ c.size ∧ (k < j → b.size < c.size))) :=
  ⟨⟨{ start_address := 0, size := 30, is_allocated := false, process_id := "FREE" },
      by decide, by decide, by decide⟩,
    bestFit_spec 10 sampleBlocks
      ⟨{ start_address := 0, size := 30, is_allocated := false, process_id := "FREE" },
        by decide, by decide, by decide⟩⟩

/-! ### The successful request path -/

theorem get?_decomp :
    ∀ (blocks : List MemoryBlock) (i : Nat) (b : MemoryBlock),
      blocks.get? i = some b →
      blocks = blocks.take i ++ b :: blocks.drop (i + 1) := by
  intro blocks
  induction blocks with
  | nil => intro i b h; cases h
  | cons c rest ih =>
    intro i b h
    cases i with
    | zero =>
      have hc : c = b := by simpa using h
      subst hc
      simp
    | succ i' =>
      have h' : rest.get? i' = some b := by simpa using h
      have := ih i' b h'
      calc c :: rest = c :: (rest.take i' ++ b :: rest.drop (i' + 1)) := by rw [← this]
        _ = (c :: rest).take (i' + 1) ++ b :: (c :: rest).drop (i' + 1 + 1) := by simp

theorem allocAt_eq (pid : String) (size : Nat) :
    ∀ (blocks : List MemoryBlock) (i : Nat) (b : MemoryBlock),
      blocks.get? i = some b →
      allocAt pid size i blocks =
        blocks.take i ++ splitAlloc pid size b ++ blocks.drop (i + 1) := by
  intro blocks
  induction blocks with
  | nil => intro i b h; cases h
  | cons c rest ih =>
    intro i b h
    cases i with
    | zero =>
      have hc : c = b := by simpa using h
      subst hc
      simp [allocAt]
    | succ i' =>
      have h' : rest.get? i' = some b := by simpa using h
      simp only [allocAt, ih i' b h', List.take_succ_cons, List.drop_succ_cons,
        List.cons_append]

/-- C4: a successful request of positive size selects a free candidate of
adequate size; a candidate of exactly the requested size is relabeled in
place, a strictly larger one is shrunk to the requested size and relabeled
while a new free block with the remainder is inserted right after it; all
other blocks are untouched. -/
theorem requestMemory_success_spec (pid : String) (size : Nat) (strategy : Char)
    (blocks : List MemoryBlock) (hpos : 0 < size)
    (hsucc : (requestMemory pid size strategy blocks).1 = true) :
    ∃ i b, selectBlock strategy size blocks = some i ∧ blocks.get? i = some b ∧
      b.is_allocated = false ∧ size ≤ b.size ∧
      (requestMemory pid size strategy blocks).2 =
        blocks.take i ++
          (if b.size = size then
            [{ b with is_allocated := true, process_id := pid }]
           else
            [{ b with size := size, is_allocated := true, process_id := pid },
             { start_address := b.start_address + size, size := b.size - size,
               is_allocated := false, process_id := "FREE" }]) ++
          blocks.drop (i + 1) := by
  clear hpos
  cases hsel : selectBlock strategy size blocks with
  | none =>
    exfalso
    unfold requestMemory at hsucc
    rw [hsel] at hsucc
    cases hsucc
  | some i =>
    rcases selectBlock_sound strategy size blocks i hsel with ⟨b, hb, hfree, hsz⟩
    refine ⟨i, b, rfl, hb, hfree, hsz, ?_⟩
    have hreq : (requestMemory pid size strategy blocks).2 = allocAt pid size i blocks := by
      unfold requestMemory
      rw [hsel]
    rw [hreq, allocAt_eq pid size blocks i b hb]
    congr 1
    congr 1
    unfold splitAlloc
    by_cases hlt : size < b.size
    · rw [if_pos hlt, if_neg (by omega)]
    · rw [if_neg hlt, if_pos (by omega)]

/-- C4 witness: best-fit request of 20 bytes on `sampleBlocks` takes the free
block of size 30 at index 0 and splits it. -/
theorem requestMemory_success_spec_witness :
    0 < 20 ∧ (requestMemory "P9" 20 'B' sampleBlocks).1 = true ∧
      (∃ i b, selectBlock 'B' 20 sampleBlocks = some i ∧ sampleBlocks.get? i = some b ∧
        b.is_allocated = false ∧ 20 ≤ b.size ∧
        (requestMemory "P9" 20 'B' sampleBlocks).2 =
          sampleBlocks.take i ++
            (if b.size = 20 then
              [{ b with is_allocated := true, process_id := "P9" }]
             else
              [{ b with size := 20, is_allocated := true, process_id := "P9" },
               { start_address := b.start_address + 20, size := b.size - 20,
                 is_allocated := false, process_id := "FREE" }]) ++
            sampleBlocks.drop (i + 1)) :=
  ⟨by decide, by decide,
    requestMemory_success_spec "P9" 20 'B' sampleBlocks (by decide) (by decide)⟩

/-! ### Characterization of release -/

theorem releaseGo_no_match (pid : String) :
    ∀ (blocks : List MemoryBlock) (prev : MemoryBlock),
      (∀ x ∈ blocks, matchesProcess pid x = false) →
      releaseGo pid prev blocks = prev :: blocks := by
  intro blocks
  induction blocks with
  | nil => intro prev _; rfl
  | cons c rest ih =>
    intro prev h
    rw [releaseGo, if_neg (by rw [h c (List.mem_cons_self c rest)]; exact Bool.false_ne_true),
      ih c (fun x hx => h x (List.mem_cons_of_mem c hx))]

/-- When no block is owned by `pid`, `releaseMemory` prints
`No process with ID ... found.` and leaves the list unchanged. -/
theorem releaseMemory_no_match (pid : String) (blocks : List MemoryBlock)
    (h : ∀ x ∈ blocks, matchesProcess pid x = false) :
    releaseMemory pid blocks = blocks := by
  cases blocks with
  | nil => rfl
  | cons b rest =>
    rw [releaseMemory]
    rw [if_neg (by rw [h b (List.mem_cons_self b rest)]; exact Bool.false_ne_true)]
    exact releaseGo_no_match pid rest b (fun x hx => h x (List.mem_cons_of_mem b hx))

theorem releaseGo_found (pid : String) (m : MemoryBlock) (post : List MemoryBlock)
    (hm : matchesProcess pid m = true) :
    ∀ (pre : List MemoryBlock) (prev : MemoryBlock),
      (∀ x ∈ pre, matchesProcess pid x = false) →
      releaseGo pid prev (pre ++ m :: post) =
        (if (pre.getLastD prev).is_allocated then
          (prev :: pre) ++ mergeNextFree (setFree m) post
         else
          (prev :: pre).dropLast ++
            mergeNextFree
              { pre.getLastD prev with size := (pre.getLastD prev).size + m.size } post) := by
  intro pre
  induction pre with
  | nil =>
    intro prev _
    rw [List.nil_append, releaseGo, if_pos hm]
    by_cases hp : prev.is_allocated
    · rw [if_pos hp, if_pos (by simpa [List.getLastD] using hp)]
      rfl
    · rw [if_neg hp, if_neg (by simpa [List.getLastD] using hp)]
      rfl
  | cons a pre' ih =>
    intro prev h
    have ha : matchesProcess pid a = false := h a (List.mem_cons_self a pre')
    rw [List.cons_append, releaseGo, if_neg (by rw [ha]; exact Bool.false_ne_true),
      ih a (fun x hx => h x (List.mem_cons_of_mem a hx))]
    rw [List.getLastD_cons]
    by_cases hl : (pre'.getLastD a).is_allocated = true
    · rw [if_pos hl, if_pos hl]
      rfl
    · rw [if_neg hl, if_neg hl]
      rfl

/-- Shared characterization: `releaseMemory` on a list whose first block owned
by `pid` is `m`, with `pre` before it and `post` after it. -/
theorem releaseMemory_found (pid : String) (pre : List MemoryBlock) (m : MemoryBlock)
    (post : List MemoryBlock)
    (hpre : ∀ x ∈ pre, matchesProcess pid x = false)
    (hm : matchesProcess pid m = true) :
    releaseMemory pid (pre ++ m :: post) =
      (match pre.getLast? with
       | none => mergeNextFree (setFree m) post
       | some p =>
         if p.is_allocated then pre ++ mergeNextFree (setFree m) post
         else pre.dropLast ++ mergeNextFree { p with size := p.size + m.size } post) := by
  cases pre with
  | nil =>
    rw [List.nil_append, releaseMemory, if_pos hm]
    rfl
  | cons a pre' =>
    rw [List.cons_append, releaseMemory,
      if_neg (by rw [hpre a (List.mem_cons_self a pre')]; exact Bool.false_ne_true),
      releaseGo_found pid m post hm pre' a (fun x hx => hpre x (List.mem_cons_of_mem a hx))]
    rw [List.getLast?_cons, List.getLastD_eq_getLast?]

/-! ### Claim C3 and its spec-side description of release -/

/-- The freed form of a block: relabeled Free (the code also rewrites the id
field to the sentinel `FREE`). -/
def freedBlock (m : MemoryBlock) : MemoryBlock :=
  { start_address := m.start_address, size := m.size, is_allocated := false,
    process_id := "FREE" }

/-- Spec-side right merge (claim C3): when the block immediately after the
freed block is Free, it is absorbed into it; otherwise nothing happens. -/
def mergeRight (b : MemoryBlock) (post : List MemoryBlock) : List MemoryBlock :=
  match post with
  | [] => [b]
  | n :: rest =>
    if n.is_allocated = false then
      { start_address := b.start_address, size := b.size + n.size,
        is_allocated := false, process_id := b.process_id } :: rest
    else b :: n :: rest

/-- Spec-side description of one release (claim C3): relabel `m` Free, merge
it into the preceding block when that one is Free, then absorb the following
block when that one is Free; every other block stays. -/
def releaseDescribed (pre : List MemoryBlock) (m : MemoryBlock)
    (post : List MemoryBlock) : List MemoryBlock :=
  match pre.getLast? with
  | none => mergeRight (freedBlock m) post
  | some p =>
    if p.is_allocated = false then
      pre.dropLast ++
        mergeRight
          { start_address := p.start_address, size := p.size + m.size,
            is_allocated := false, process_id := p.process_id } post
    else pre ++ mergeRight (freedBlock m) post

theorem mergeRight_eq_mergeNextFree (b : MemoryBlock) (post : List MemoryBlock)
    (hb : b.is_allocated = false) :
    mergeRight b post = mergeNextFree b post := by
  obtain ⟨bs, bz, ba, bp⟩ := b
  change ba = false at hb
  subst hb
  cases post with
  | nil => rfl
  | cons n rest =>
    cases hn : n.is_allocated
    · simp [mergeRight, mergeNextFree, hn]
    · simp [mergeRight, mergeNextFree, hn]

/-- C3: release relabels exactly the first block owned by the process as
Free, merges it with the immediately preceding block when that one is Free
and with the immediately following block when that one is Free (at most one
merge on each side), and leaves every other block — later blocks of the same
process included — unchanged. -/
theorem releaseMemory_spec (pid : String) (pre : List MemoryBlock) (m : MemoryBlock)
    (post : List MemoryBlock)
    (hpre : ∀ x ∈ pre, ¬(x.is_allocated = true ∧ x.process_id = pid))
    (hm : m.is_allocated = true ∧ m.process_id = pid) :
    releaseMemory pid (pre ++ m :: post) = releaseDescribed pre m post := by
  have hpre' : ∀ x ∈ pre, matchesProcess pid x = false := by
    intro x hx
    have := hpre x hx
    unfold matchesProcess
    cases hxa : x.is_allocated
    · rfl
    · simp only [Bool.true_and]
      have : x.process_id ≠ pid := fun heq => this ⟨hxa, heq⟩
      exact beq_false_of_ne this
  have hm' : matchesProcess pid m = true := by
    unfold matchesProcess
    rw [hm.1, hm.2]
    simp
  rw [releaseMemory_found pid pre m post hpre' hm']
  unfold releaseDescribed
  cases hlast : pre.getLast? with
  | none =>
    show mergeNextFree (setFree m) post = mergeRight (freedBlock m) post
    exact (mergeRight_eq_mergeNextFree (freedBlock m) post rfl).symm
  | some p =>
    obtain ⟨ps, pz, pa, pp⟩ := p
    cases pa
    · show pre.dropLast ++
          mergeNextFree
            { start_address := ps, size := pz + m.size, is_allocated := false,
              process_id := pp } post =
        pre.dropLast ++
          mergeRight
            { start_address := ps, size := pz + m.size, is_allocated := false,
              process_id := pp } post
      rw [mergeRight_eq_mergeNextFree _ post rfl]
    · show pre ++ mergeNextFree (setFree m) post = pre ++ mergeRight (freedBlock m) post
      rw [mergeRight_eq_mergeNextFree (freedBlock m) post rfl]
      rfl

/-- The concrete instance for the C3 witness: a free block, the first `P2`
block, then a free block and a second `P2` block. -/
def relPre : List MemoryBlock :=
  [{ start_address := 0, size := 30, is_allocated := false, process_id := "FREE" }]

def relM : MemoryBlock :=
  { start_address := 30, size := 20, is_allocated := true, process_id := "P2" }

def relPost : List MemoryBlock :=
  [{ start_address := 50, size := 10, is_allocated := false, process_id := "FREE" },
   { start_address := 60, size := 40, is_allocated := true, process_id := "P2" }]

/-- C3 witness: releasing `P2` in a state where the owned block sits between
two free blocks merges on both sides; a later `P2` block stays untouched. -/
theorem releaseMemory_spec_witness :
    (∀ x ∈ relPre, ¬(x.is_allocated = true ∧ x.process_id = "P2")) ∧
      (relM.is_allocated = true ∧ relM.process_id = "P2") ∧
      releaseMemory "P2" (relPre ++ relM :: relPost) = releaseDescribed relPre relM relPost :=
  ⟨by decide, ⟨rfl, rfl⟩,
    releaseMemory_spec "P2" relPre relM relPost (by decide) ⟨rfl, rfl⟩⟩

theorem firstFit_complete (size : Nat) :
    ∀ (blocks : List MemoryBlock),
      (∃ b ∈ blocks, b.is_allocated = false ∧ size ≤ b.size) →
      ∃ i, firstFit size blocks = some i := by
  intro blocks
  induction blocks with
  | nil => intro h; simp at h
  | cons b rest ih =>
    intro h
    rw [firstFit]
    by_cases hb : (!b.is_allocated && decide (size ≤ b.size)) = true
    · exact ⟨0, by rw [if_pos hb]⟩
    · rw [if_neg hb]
      have hrest : ∃ c ∈ rest, c.is_allocated = false ∧ size ≤ c.size := by
        rcases h with ⟨c, hc, hcand⟩
        rcases List.mem_cons.mp hc with rfl | hc'
        · exfalso
          apply hb
          simp only [Bool.and_eq_true, Bool.not_eq_true', decide_eq_true_eq]
          exact ⟨hcand.1, hcand.2⟩
        · exact ⟨c, hc', hcand⟩
      rcases ih hrest with ⟨i, hi⟩
      exact ⟨i + 1, by rw [hi]; rfl⟩

/-! ### Lemmas for the request-then-release round trip -/

theorem matchesProcess_false_of_not (pid : String) (x : MemoryBlock)
    (h : ¬(x.is_allocated = true ∧ x.process_id = pid)) :
    matchesProcess pid x = false := by
  unfold matchesProcess
  cases hxa : x.is_allocated
  · rfl
  · simp only [Bool.true_and]
    exact beq_false_of_ne (fun heq => h ⟨hxa, heq⟩)

theorem noAdjacentFree_tail (a : MemoryBlock) (l : List MemoryBlock)
    (h : noAdjacentFree (a :: l) = true) : noAdjacentFree l = true := by
  cases l with
  | nil => rfl
  | cons c rest =>
    rw [noAdjacentFree, Bool.and_eq_true] at h
    exact h.2

theorem noAdjacentFree_pair :
    ∀ (l : List MemoryBlock) (k : Nat) (x y : MemoryBlock),
      noAdjacentFree l = true → l.get? k = some x → l.get? (k + 1) = some y →
      x.is_allocated = true ∨ y.is_allocated = true := by
  intro l
  induction l with
  | nil => intro k x y _ hx _; cases hx
  | cons a rest ih =>
    intro k x y hadj hx hy
    cases k with
    | zero =>
      have hax : a = x := by simpa using hx
      subst hax
      cases rest with
      | nil => cases hy
      | cons c rest' =>
        have hcy : c = y := by simpa using hy
        subst hcy
        rw [noAdjacentFree, Bool.and_eq_true] at hadj
        have h1 := hadj.1
        rw [Bool.or_eq_true] at h1
        exact h1
    | succ k' =>
      exact ih k' x y (noAdjacentFree_tail a rest hadj) (by simpa using hx)
        (by simpa using hy)

theorem getLast?_take_succ {α : Type} (l : List α) (n : Nat) (x : α)
    (h : l.get? n = some x) : (l.take (n + 1)).getLast? = some x := by
  have h2 : l[n]? = some x := by rw [← List.get?_eq_getElem?]; exact h
  rw [List.take_succ, h2]
  simp

theorem mergeNextFree_no_merge (b : MemoryBlock) (l : List MemoryBlock)
    (h : ∀ y, l.head? = some y → y.is_allocated = true) :
    mergeNextFree b l = b :: l := by
  cases l with
  | nil => rfl
  | cons n rest => rw [mergeNextFree, if_pos (h n rfl)]

/-- After an allocation at index `i` of a free block, releasing the freshly
written process id frees exactly the allocated block: the preceding block (if
any) is allocated, so only the successor merge can fire. -/
theorem release_after_alloc (pid : String) (blocks : List MemoryBlock) (i : Nat)
    (b m : MemoryBlock) (post : List MemoryBlock)
    (hadj : noAdjacentFree blocks = true)
    (hb : blocks.get? i = some b) (hbfree : b.is_allocated = false)
    (hpre : ∀ x ∈ blocks.take i, matchesProcess pid x = false)
    (hm : matchesProcess pid m = true) :
    releaseMemory pid (blocks.take i ++ m :: post) =
      blocks.take i ++ mergeNextFree (setFree m) post := by
  rw [releaseMemory_found pid (blocks.take i) m post hpre hm]
  cases i with
  | zero => rfl
  | succ k =>
    have hlt : k + 1 < blocks.length := by
      rcases List.get?_eq_some.mp hb with ⟨h, _⟩
      exact h
    have hp : blocks.get? k = some (blocks.get ⟨k, by omega⟩) := List.get?_eq_get _
    have hpa : (blocks.get ⟨k, by omega⟩).is_allocated = true := by
      rcases noAdjacentFree_pair blocks k _ b hadj hp hb with h | h
      · exact h
      · rw [hbfree] at h; cases h
    rw [getLast?_take_succ blocks k _ hp]
    simp only [hpa, if_true]

/-- A state in which process `P1` already owns a block before a new request
is made in its name. -/
def staleBlocks : List MemoryBlock :=
  [{ start_address := 0, size := 10, is_allocated := true, process_id := "P1" },
   { start_address := 10, size := 10, is_allocated := false, process_id := "FREE" }]

/-- C6 counterexample: on `staleBlocks` the request for `P1` succeeds, no
compaction intervenes, release performs no merge at all (the block count is
unchanged), yet request followed by release does not restore the original
partition and labels: release frees the OLDER `P1` block, not the freshly
allocated one. -/
theorem request_release_not_inverse :
    invariants 20 staleBlocks ∧
      (requestMemory "P1" 5 'F' staleBlocks).1 = true ∧
      (releaseMemory "P1" (requestMemory "P1" 5 'F' staleBlocks).2).length =
        ((requestMemory "P1" 5 'F' staleBlocks).2).length ∧
      stateView (releaseMemory "P1" (requestMemory "P1" 5 'F' staleBlocks).2) ≠
        stateView staleBlocks :=
  ⟨⟨by decide, by decide, by decide⟩, by decide, by decide, by decide⟩

/-- C6 (amended): for every state satisfying the invariants in which the
process id owns no block yet, a successful positive-size request followed
immediately by release of the same id restores the original partition and
labels. -/
theorem request_release_restores (pid : String) (size : Nat) (strategy : Char)
    (total : Nat) (blocks : List MemoryBlock)
    (hinv : invariants total blocks)
    (hfresh : ∀ x ∈ blocks, ¬(x.is_allocated = true ∧ x.process_id = pid))
    (hpos : 0 < size)
    (hsucc : (requestMemory pid size strategy blocks).1 = true) :
    stateView (releaseMemory pid (requestMemory pid size strategy blocks).2) =
      stateView blocks := by
  clear hpos
  cases hsel : selectBlock strategy size blocks with
  | none =>
    exfalso
    unfold requestMemory at hsucc
    rw [hsel] at hsucc
    cases hsucc
  | some i =>
    rcases selectBlock_sound strategy size blocks i hsel with ⟨b, hb, hfree, hsz⟩
    have hreq : (requestMemory pid size strategy blocks).2 = allocAt pid size i blocks := by
      unfold requestMemory
      rw [hsel]
    rw [hreq, allocAt_eq pid size blocks i b hb]
    have hpre : ∀ x ∈ blocks.take i, matchesProcess pid x = false := by
      intro x hx
      exact matchesProcess_false_of_not pid x (hfresh x (List.take_subset i blocks hx))
    have hdrop : ∀ y, (blocks.drop (i + 1)).head? = some y → y.is_allocated = true := by
      intro y hy
      have hy' : blocks.get? (i + 1) = some y := by
        rw [List.get?_eq_getElem?, ← List.head?_drop]
        exact hy
      rcases noAdjacentFree_pair blocks i b y hinv.2.1 hb hy' with h | h
      · rw [hfree] at h; cases h
      · exact h
    by_cases hlt : size < b.size
    · have hsplit : splitAlloc pid size b =
          [{ b with size := size, is_allocated := true, process_id := pid },
           { start_address := b.start_address + size, size := b.size - size,
             is_allocated := false, process_id := "FREE" }] := by
        unfold splitAlloc
        rw [if_pos hlt]
      rw [hsplit]
      have hshape : blocks.take i ++
          [{ b with size := size, is_allocated := true, process_id := pid },
           { start_address := b.start_address + size, size := b.size - size,
             is_allocated := false, process_id := "FREE" }] ++ blocks.drop (i + 1) =
          blocks.take i ++
            { b with size := size, is_allocated := true, process_id := pid } ::
              ({ start_address := b.start_address + size, size := b.size - size,
                 is_allocated := false, process_id := "FREE" } :: blocks.drop (i + 1)) := by
        simp
      rw [hshape,
        release_after_alloc pid blocks i b _ _ hinv.2.1 hb hfree hpre
          (by unfold matchesProcess; simp)]
      have hmerge : mergeNextFree
          (setFree { b with size := size, is_allocated := true, process_id := pid })
          ({ start_address := b.start_address + size, size := b.size - size,
             is_allocated := false, process_id := "FREE" } :: blocks.drop (i + 1)) =
          { start_address := b.start_address, size := b.size, is_allocated := false,
            process_id := "FREE" } :: blocks.drop (i + 1) := by
        rw [mergeNextFree, if_neg (by simp)]
        have : size + (b.size - size) = b.size := by omega
        simp [setFree, this]
      rw [hmerge]
      conv_rhs => rw [get?_decomp blocks i b hb]
      unfold stateView
      rw [List.map_append, List.map_append, List.map_cons, List.map_cons]
      have hview : blockView
          { start_address := b.start_address, size := b.size, is_allocated := false,
            process_id := "FREE" } = blockView b := by
        unfold blockView
        rw [hfree]
        simp
      rw [hview]
    · have hexact : b.size = size := by omega
      have hsplit : splitAlloc pid size b =
          [{ b with is_allocated := true, process_id := pid }] := by
        unfold splitAlloc
        rw [if_neg hlt]
      rw [hsplit]
      have hshape : blocks.take i ++
          [{ b with is_allocated := true, process_id := pid }] ++ blocks.drop (i + 1) =
          blocks.take i ++
            { b with is_allocated := true, process_id := pid } :: blocks.drop (i + 1) := by
        simp
      rw [hshape,
        release_after_alloc pid blocks i b _ _ hinv.2.1 hb hfree hpre
          (by unfold matchesProcess; simp),
        mergeNextFree_no_merge _ _ hdrop]
      conv_rhs => rw [get?_decomp blocks i b hb]
      unfold stateView
      rw [List.map_append, List.map_append, List.map_cons, List.map_cons]
      have hview : blockView (setFree { b with is_allocated := true, process_id := pid }) =
          blockView b := by
        unfold blockView setFree
        rw [hfree]
        simp
      rw [hview]

/-- C6 (amended) witness: a fresh 100-byte memory, request of 40 bytes for a
new process id, then release. -/
theorem request_release_restores_witness :
    invariants 100 (initializeMemory 100) ∧
      (∀ x ∈ initializeMemory 100, ¬(x.is_allocated = true ∧ x.process_id = "P5")) ∧
      0 < 40 ∧ (requestMemory "P5" 40 'F' (initializeMemory 100)).1 = true ∧
      stateView (releaseMemory "P5" (requestMemory "P5" 40 'F' (initializeMemory 100)).2) =
        stateView (initializeMemory 100) :=
  ⟨⟨by decide, by decide, by decide⟩, by decide, by decide, by decide,
    request_release_restores "P5" 40 'F' 100 (initializeMemory 100)
      ⟨by decide, by decide, by decide⟩ (by decide) (by decide) (by decide)⟩

theorem worstFitGo_some_acc (size : Nat) :
    ∀ (blocks : List MemoryBlock) (p : Nat × MemoryBlock) (i : Nat),
      ∃ q, worstFitGo size (some p) i blocks = some q := by
  intro blocks
  induction blocks with
  | nil => intro p i; exact ⟨p, rfl⟩
  | cons c rest ih =>
    intro p i
    rw [worstFitGo]
    split
    · exact ih (i, c) (i + 1)
    · exact ih p (i + 1)

theorem worstFitGo_complete (size : Nat) :
    ∀ (blocks : List MemoryBlock) (acc : Option (Nat × MemoryBlock)) (i : Nat),
      (∃ c ∈ blocks, isCandidate size c) →
      ∃ q, worstFitGo size acc i blocks = some q := by
  intro blocks
  induction blocks with
  | nil => intro acc i h; simp at h
  | cons c rest ih =>
    intro acc i hex
    rw [worstFitGo]
    split
    · exact worstFitGo_some_acc size rest (i, c) (i + 1)
    · rename_i hc
      cases acc with
      | some p => exact worstFitGo_some_acc size rest p (i + 1)
      | none =>
        refine ih none (i + 1) ?_
        rcases hex with ⟨d, hd, hcand⟩
        rcases List.mem_cons.mp hd with rfl | hd'
        · exfalso
          apply hc
          simp [largerThan, hcand.1, hcand.2]
        · exact ⟨d, hd', hcand⟩

/-- Each of the three strategy letters finds a block whenever some free block
is large enough. -/
theorem selectBlock_complete (strategy : Char) (size : Nat) (blocks : List MemoryBlock)
    (hstrat : strategy = 'F' ∨ strategy = 'B' ∨ strategy = 'W')
    (hex : ∃ c ∈ blocks, c.is_allocated = false ∧ size ≤ c.size) :
    ∃ i, selectBlock strategy size blocks = some i := by
  have hex' : ∃ c ∈ blocks, isCandidate size c := by
    rcases hex with ⟨c, hc, h1, h2⟩
    exact ⟨c, hc, h1, h2⟩
  rcases hstrat with rfl | rfl | rfl
  · rcases firstFit_complete size blocks hex with ⟨i, hi⟩
    exact ⟨i, by unfold selectBlock; exact hi⟩
  · rcases bestFitGo_complete size blocks none 0 hex' with ⟨⟨j, c⟩, hres⟩
    refine ⟨j, ?_⟩
    unfold selectBlock bestFit
    rw [hres]
    rfl
  · rcases worstFitGo_complete size blocks none 0 hex' with ⟨⟨j, c⟩, hres⟩
    refine ⟨j, ?_⟩
    unfold selectBlock worstFit
    rw [hres]
    rfl

/-- C10: a size-0 request (violating the positive-size precondition) under
strategy `F`, `B` or `W`, on a state satisfying the invariants with at least
one free block, still selects a free block and splits it into an owned block
of size 0 and a free block of the candidate's whole original size, both
sharing the candidate's start address — so the resulting list violates
invariant 3 (`allSizesPos` turns false), which is why request needs its
positive-size precondition. -/
theorem request_zero_size (pid : String) (strategy : Char) (total : Nat)
    (blocks : List MemoryBlock)
    (hstrat : strategy = 'F' ∨ strategy = 'B' ∨ strategy = 'W')
    (hinv : invariants total blocks)
    (hfree : ∃ b ∈ blocks, b.is_allocated = false) :
    ∃ i b, selectBlock strategy 0 blocks = some i ∧ blocks.get? i = some b ∧
      b.is_allocated = false ∧
      (requestMemory pid 0 strategy blocks).2 =
        blocks.take i ++
          [{ start_address := b.start_address, size := 0, is_allocated := true,
             process_id := pid },
           { start_address := b.start_address, size := b.size, is_allocated := false,
             process_id := "FREE" }] ++
          blocks.drop (i + 1) ∧
      allSizesPos ((requestMemory pid 0 strategy blocks).2) = false := by
  have hex : ∃ b ∈ blocks, b.is_allocated = false ∧ 0 ≤ b.size := by
    rcases hfree with ⟨b, hb, hb'⟩
    exact ⟨b, hb, hb', Nat.zero_le _⟩
  rcases selectBlock_complete strategy 0 blocks hstrat hex with ⟨i, hi⟩
  rcases selectBlock_sound strategy 0 blocks i hi with ⟨b, hb, hbfree, _⟩
  have hreq : (requestMemory pid 0 strategy blocks).2 = allocAt pid 0 i blocks := by
    unfold requestMemory
    rw [hi]
  have hpos : 0 < b.size := by
    have hmem : b ∈ blocks := List.get?_mem hb
    have := hinv.2.2
    unfold allSizesPos at this
    have := List.all_eq_true.mp this b hmem
    simpa using this
  have hsplit : splitAlloc pid 0 b =
      [{ start_address := b.start_address, size := 0, is_allocated := true,
         process_id := pid },
       { start_address := b.start_address, size := b.size, is_allocated := false,
         process_id := "FREE" }] := by
    unfold splitAlloc
    rw [if_pos hpos]
    simp
  have hout : (requestMemory pid 0 strategy blocks).2 =
      blocks.take i ++
        [{ start_address := b.start_address, size := 0, is_allocated := true,
           process_id := pid },
         { start_address := b.start_address, size := b.size, is_allocated := false,
           process_id := "FREE" }] ++
        blocks.drop (i + 1) := by
    rw [hreq, allocAt_eq pid 0 blocks i b hb, hsplit]
  refine ⟨i, b, hi, hb, hbfree, hout, ?_⟩
  rw [hout]
  unfold allSizesPos
  refine List.all_eq_false.mpr ?_
  refine ⟨{ start_address := b.start_address, size := 0, is_allocated := true,
            process_id := pid }, ?_, by simp⟩
  refine List.mem_append.mpr (Or.inl ?_)
  refine List.mem_append.mpr (Or.inr ?_)
  exact List.mem_cons_self _ _

/-- C10 witness: a fresh 10-byte memory and a request of size 0 under best
fit. -/
theorem request_zero_size_witness :
    (('B' : Char) = 'F' ∨ ('B' : Char) = 'B' ∨ ('B' : Char) = 'W') ∧
      invariants 10 (initializeMemory 10) ∧
      (∃ b ∈ initializeMemory 10, b.is_allocated = false) ∧
      (∃ i b, selectBlock 'B' 0 (initializeMemory 10) = some i ∧
        (initializeMemory 10).get? i = some b ∧ b.is_allocated = false ∧
        (requestMemory "Z" 0 'B' (initializeMemory 10)).2 =
          (initializeMemory 10).take i ++
            [{ start_address := b.start_address, size := 0, is_allocated := true,
               process_id := "Z" },
             { start_address := b.start_address, size := b.size, is_allocated := false,
               process_id := "FREE" }] ++
            (initializeMemory 10).drop (i + 1) ∧
        allSizesPos ((requestMemory "Z" 0 'B' (initializeMemory 10)).2) = false) :=
  ⟨Or.inr (Or.inl rfl), ⟨by decide, by decide, by decide⟩,
    ⟨{ start_address := 0, size := 10, is_allocated := false, process_id := "FREE" },
      by decide, by decide⟩,
    request_zero_size "Z" 'B' 10 (initializeMemory 10) (Or.inr (Or.inl rfl))
      ⟨by decide, by decide, by decide⟩
      ⟨{ start_address := 0, size := 10, is_allocated := false, process_id := "FREE" },
        by decide, by decide⟩⟩

/-- C9: for every strategy character other than `F`, `B` and `W`, request
selects no candidate block, reports the insufficient-space failure outcome
(`false`) and leaves the block list completely unchanged. -/
theorem request_unknown_strategy (pid : String) (size : Nat) (strategy : Char)
    (blocks : List MemoryBlock)
    (hF : strategy ≠ 'F') (hB : strategy ≠ 'B') (hW : strategy ≠ 'W') :
    selectBlock strategy size blocks = none ∧
      requestMemory pid size strategy blocks = (false, blocks) := by
  have hsel : selectBlock strategy size blocks = none := by
    unfold selectBlock
    split
    · exact absurd rfl hF
    · exact absurd rfl hB
    · exact absurd rfl hW
    · rfl
  refine ⟨hsel, ?_⟩
  unfold requestMemory
  rw [hsel]

/-- C9 witness at the concrete strategy character `Q`. -/
theorem request_unknown_strategy_witness :
    ('Q' : Char) ≠ 'F' ∧ ('Q' : Char) ≠ 'B' ∧ ('Q' : Char) ≠ 'W' ∧
      (selectBlock 'Q' 5 (initializeMemory 100) = none ∧
        requestMemory "P1" 5 'Q' (initializeMemory 100) = (false, initializeMemory 100)) :=
  ⟨by decide, by decide, by decide,
    request_unknown_strategy "P1" 5 'Q' (initializeMemory 100)
      (by decide) (by decide) (by decide)⟩

/-- C8: when no free block has size at least the requested size, request with
strategy `F`, `B` or `W` reports the insufficient-space outcome and leaves
every block unchanged. -/
theorem request_insufficient_space (pid : String) (size : Nat) (strategy : Char)
    (blocks : List MemoryBlock)
    (hstrat : strategy = 'F' ∨ strategy = 'B' ∨ strategy = 'W')
    (hno : ∀ b ∈ blocks, b.is_allocated = false → b.size < size) :
    requestMemory pid size strategy blocks = (false, blocks) := by
  have hsel : selectBlock strategy size blocks = none := by
    rcases hstrat with h | h | h <;> subst h
    · simpa [selectBlock] using firstFit_none size blocks hno
    · simp only [selectBlock, bestFit, bestFitGo_none size blocks 0 hno, Option.map_none']
    · simp only [selectBlock, worstFit, worstFitGo_none size blocks 0 hno, Option.map_none']
  unfold requestMemory
  rw [hsel]

/-- C8 witness: a request of 101 bytes out of a fresh 100-byte memory fails
under first fit and leaves the list unchanged. -/
theorem request_insufficient_space_witness :
    (('F' : Char) = 'F' ∨ ('F' : Char) = 'B' ∨ ('F' : Char) = 'W') ∧
      requestMemory "P1" 101 'F' (initializeMemory 100) = (false, initializeMemory 100) :=
  ⟨Or.inl rfl,
    request_insufficient_space "P1" 101 'F' (initializeMemory 100) (Or.inl rfl)
      (by decide)⟩

/-! ### Invariant preservation (claim C1) -/

theorem sumSizes_cons (b : MemoryBlock) (l : List MemoryBlock) :
    sumSizes (b :: l) = b.size + sumSizes l := by
  simp [sumSizes]

theorem noAdjacentFree_cons_iff (a : MemoryBlock) (l : List MemoryBlock) :
    noAdjacentFree (a :: l) = true ↔
      (noAdjacentFree l = true ∧
        ∀ y, l.head? = some y → a.is_allocated = true ∨ y.is_allocated = true) := by
  cases l with
  | nil => simp [noAdjacentFree]
  | cons c rest =>
    rw [noAdjacentFree, Bool.and_eq_true, Bool.or_eq_true]
    constructor
    · rintro ⟨h1, h2⟩
      refine ⟨h2, ?_⟩
      intro y hy
      have hcy : c = y := by simpa using hy
      subst hcy
      exact h1
    · rintro ⟨h1, h2⟩
      exact ⟨h2 c rfl, h1⟩

theorem mergeNextFree_partition (b : MemoryBlock) (l : List MemoryBlock) (a total : Nat)
    (h : partitionFrom a total (b :: l) = true) :
    partitionFrom a total (mergeNextFree b l) = true := by
  cases l with
  | nil => exact h
  | cons n rest =>
    cases hn : n.is_allocated
    · rw [mergeNextFree, if_neg (by rw [hn]; exact Bool.false_ne_true)]
      simp only [partitionFrom, Bool.and_eq_true, beq_iff_eq] at h ⊢
      obtain ⟨h1, h2, h3⟩ := h
      refine ⟨h1, ?_⟩
      have : a + (b.size + n.size) = a + b.size + n.size := by omega
      rw [this]
      exact h3
    · rw [mergeNextFree, if_pos hn]
      exact h

theorem mergeNextFree_head (b : MemoryBlock) (l : List MemoryBlock) :
    ∃ h, (mergeNextFree b l).head? = some h ∧ h.is_allocated = b.is_allocated := by
  cases l with
  | nil => exact ⟨b, rfl, rfl⟩
  | cons n rest =>
    cases hn : n.is_allocated
    · rw [mergeNextFree, if_neg (by rw [hn]; exact Bool.false_ne_true)]
      exact ⟨{ b with size := b.size + n.size }, rfl, rfl⟩
    · rw [mergeNextFree, if_pos hn]
      exact ⟨b, rfl, rfl⟩

theorem mergeNextFree_noAdj (b : MemoryBlock) (l : List MemoryBlock)
    (hb : b.is_allocated = false) (hl : noAdjacentFree l = true) :
    noAdjacentFree (mergeNextFree b l) = true := by
  cases l with
  | nil => rfl
  | cons n rest =>
    cases hn : n.is_allocated
    · rw [mergeNextFree, if_neg (by rw [hn]; exact Bool.false_ne_true)]
      rw [noAdjacentFree_cons_iff]
      refine ⟨noAdjacentFree_tail n rest hl, ?_⟩
      intro y hy
      rcases (noAdjacentFree_cons_iff n rest).mp hl with ⟨_, hpair⟩
      rcases hpair y hy with h | h
      · rw [hn] at h; cases h
      · exact Or.inr h
    · rw [mergeNextFree, if_pos hn]
      rw [noAdjacentFree_cons_iff]
      exact ⟨hl, fun y hy => by
        have : n = y := by simpa using hy
        subst this
        exact Or.inr hn⟩

theorem mergeNextFree_allpos (b : MemoryBlock) (l : List MemoryBlock)
    (hb : 0 < b.size) (hl : allSizesPos l = true) :
    allSizesPos (mergeNextFree b l) = true := by
  cases l with
  | nil => simp [mergeNextFree, allSizesPos, hb]
  | cons n rest =>
    unfold allSizesPos at hl ⊢
    rw [List.all_cons, Bool.and_eq_true] at hl
    cases hn : n.is_allocated
    · rw [mergeNextFree, if_neg (by rw [hn]; exact Bool.false_ne_true)]
      rw [List.all_cons, Bool.and_eq_true]
      exact ⟨by simp; omega, hl.2⟩
    · rw [mergeNextFree, if_pos hn]
      rw [List.all_cons, Bool.and_eq_true]
      exact ⟨by simp [hb], by rw [List.all_cons, Bool.and_eq_true]; exact hl⟩

theorem releaseGo_partition (pid : String) :
    ∀ (l : List MemoryBlock) (prev : MemoryBlock) (a total : Nat),
      partitionFrom a total (prev :: l) = true →
      partitionFrom a total (releaseGo pid prev l) = true := by
  intro l
  induction l with
  | nil => intro prev a total h; exact h
  | cons c rest ih =>
    intro prev a total h
    rw [releaseGo]
    by_cases hc : matchesProcess pid c = true
    · rw [if_pos hc]
      cases hp : prev.is_allocated
      · rw [if_neg (by simp)]
        apply mergeNextFree_partition
        simp only [partitionFrom, Bool.and_eq_true, beq_iff_eq] at h ⊢
        obtain ⟨h1, h2, h3⟩ := h
        refine ⟨h1, ?_⟩
        have : a + (prev.size + c.size) = a + prev.size + c.size := by omega
        rw [this]
        exact h3
      · rw [if_pos rfl]
        simp only [partitionFrom, Bool.and_eq_true, beq_iff_eq] at h ⊢
        obtain ⟨h1, h2, h3⟩ := h
        refine ⟨h1, ?_⟩
        have hm := mergeNextFree_partition (setFree c) rest (a + prev.size) total
        simp only [partitionFrom, Bool.and_eq_true, beq_iff_eq, setFree] at hm
        exact hm ⟨h2, h3⟩
    · rw [if_neg hc]
      simp only [partitionFrom, Bool.and_eq_true, beq_iff_eq] at h ⊢
      obtain ⟨h1, h2⟩ := h
      refine ⟨h1, ?_⟩
      have := ih c (a + prev.size) total
      simp only [partitionFrom, Bool.and_eq_true, beq_iff_eq] at this
      exact this h2

theorem releaseGo_head (pid : String) :
    ∀ (l : List MemoryBlock) (prev : MemoryBlock),
      ∃ h, (releaseGo pid prev l).head? = some h ∧ h.is_allocated = prev.is_allocated := by
  intro l
  cases l with
  | nil => intro prev; exact ⟨prev, rfl, rfl⟩
  | cons c rest =>
    intro prev
    rw [releaseGo]
    by_cases hc : matchesProcess pid c = true
    · rw [if_pos hc]
      cases hp : prev.is_allocated
      · rw [if_neg (by simp)]
        rcases mergeNextFree_head
          { start_address := prev.start_address, size := prev.size + c.size,
            is_allocated := false, process_id := prev.process_id } rest with ⟨h, hh, ha⟩
        refine ⟨h, hh, ?_⟩
        exact ha
      · rw [if_pos rfl]
        exact ⟨prev, rfl, hp⟩
    · rw [if_neg hc]
      exact ⟨prev, rfl, rfl⟩

theorem releaseGo_noAdj (pid : String) :
    ∀ (l : List MemoryBlock) (prev : MemoryBlock),
      noAdjacentFree (prev :: l) = true →
      noAdjacentFree (releaseGo pid prev l) = true := by
  intro l
  induction l with
  | nil => intro prev _; rfl
  | cons c rest ih =>
    intro prev h
    have hrest : noAdjacentFree (c :: rest) = true := noAdjacentFree_tail prev _ h
    rw [releaseGo]
    by_cases hc : matchesProcess pid c = true
    · rw [if_pos hc]
      cases hp : prev.is_allocated
      · rw [if_neg (by simp)]
        exact mergeNextFree_noAdj _ rest rfl (noAdjacentFree_tail c rest hrest)
      · rw [if_pos rfl]
        rw [noAdjacentFree_cons_iff]
        refine ⟨mergeNextFree_noAdj _ rest rfl (noAdjacentFree_tail c rest hrest), ?_⟩
        intro y _
        exact Or.inl hp
    · rw [if_neg hc]
      rw [noAdjacentFree_cons_iff]
      refine ⟨ih c hrest, ?_⟩
      intro y hy
      rcases releaseGo_head pid rest c with ⟨h', hh', ha'⟩
      rw [hy] at hh'
      have hyh : y = h' := by simpa using hh'
      subst hyh
      rcases (noAdjacentFree_cons_iff prev (c :: rest)).mp h with ⟨_, hpair⟩
      rcases hpair c rfl with hl | hr
      · exact Or.inl hl
      · exact Or.inr (by rw [ha', hr])

theorem releaseGo_allpos (pid : String) :
    ∀ (l : List MemoryBlock) (prev : MemoryBlock),
      allSizesPos (prev :: l) = true →
      allSizesPos (releaseGo pid prev l) = true := by
  intro l
  induction l with
  | nil => intro prev h; exact h
  | cons c rest ih =>
    intro prev h
    unfold allSizesPos at h
    rw [List.all_cons, Bool.and_eq_true] at h
    obtain ⟨hprev, h2⟩ := h
    rw [List.all_cons, Bool.and_eq_true] at h2
    obtain ⟨hc, hrest⟩ := h2
    rw [releaseGo]
    by_cases hm : matchesProcess pid c = true
    · rw [if_pos hm]
      cases hp : prev.is_allocated
      · rw [if_neg (by simp)]
        refine mergeNextFree_allpos _ rest ?_ hrest
        simp only [decide_eq_true_eq] at hprev
        simp
        omega
      · rw [if_pos rfl]
        unfold allSizesPos
        rw [List.all_cons, Bool.and_eq_true]
        refine ⟨hprev, ?_⟩
        refine mergeNextFree_allpos _ rest ?_ hrest
        simp only [decide_eq_true_eq] at hc
        simpa [setFree] using hc
    · rw [if_neg hm]
      unfold allSizesPos
      rw [List.all_cons, Bool.and_eq_true]
      refine ⟨hprev, ?_⟩
      exact ih c (by unfold allSizesPos; rw [List.all_cons, Bool.and_eq_true]; exact ⟨hc, hrest⟩)

/-- Release preserves all three invariants, on every state and process id. -/
theorem releaseMemory_invariants (pid : String) (total : Nat) (blocks : List MemoryBlock)
    (hinv : invariants total blocks) : invariants total (releaseMemory pid blocks) := by
  obtain ⟨h1, h2, h3⟩ := hinv
  cases blocks with
  | nil => exact ⟨h1, h2, h3⟩
  | cons b rest =>
    rw [releaseMemory]
    by_cases hb : matchesProcess pid b = true
    · rw [if_pos hb]
      refine ⟨?_, ?_, ?_⟩
      · apply mergeNextFree_partition
        simpa [partitionFrom, setFree] using h1
      · exact mergeNextFree_noAdj _ rest rfl (noAdjacentFree_tail b rest h2)
      · unfold allSizesPos at h3
        rw [List.all_cons, Bool.and_eq_true] at h3
        refine mergeNextFree_allpos _ rest ?_ h3.2
        have := h3.1
        simp only [decide_eq_true_eq] at this
        simpa [setFree] using this
    · rw [if_neg hb]
      exact ⟨releaseGo_partition pid rest b 0 total h1, releaseGo_noAdj pid rest b h2,
        releaseGo_allpos pid rest b h3⟩

theorem allocAt_head (pid : String) (size : Nat) :
    ∀ (blocks : List MemoryBlock) (i : Nat) (y' : MemoryBlock),
      (allocAt pid size i blocks).head? = some y' →
      ∃ y, blocks.head? = some y ∧ (y'.is_allocated = true ∨ y' = y) := by
  intro blocks
  cases blocks with
  | nil => intro i y' h; cases i <;> cases h
  | cons b rest =>
    intro i y' h
    cases i with
    | zero =>
      refine ⟨b, rfl, Or.inl ?_⟩
      rw [allocAt] at h
      unfold splitAlloc at h
      by_cases hlt : size < b.size
      · rw [if_pos hlt] at h
        have : ({ b with size := size, is_allocated := true, process_id := pid } :
            MemoryBlock) = y' := by simpa using h
        rw [← this]
      · rw [if_neg hlt] at h
        have : ({ b with is_allocated := true, process_id := pid } :
            MemoryBlock) = y' := by simpa using h
        rw [← this]
    | succ i' =>
      rw [allocAt] at h
      have : b = y' := by simpa using h
      exact ⟨b, rfl, Or.inr this.symm⟩

theorem allocAt_partition (pid : String) (size : Nat) :
    ∀ (blocks : List MemoryBlock) (i : Nat) (b : MemoryBlock) (a total : Nat),
      blocks.get? i = some b → size ≤ b.size →
      partitionFrom a total blocks = true →
      partitionFrom a total (allocAt pid size i blocks) = true := by
  intro blocks
  induction blocks with
  | nil => intro i b a total hget; cases hget
  | cons c rest ih =>
    intro i b a total hget hsz h
    cases i with
    | zero =>
      have hc : c = b := by simpa using hget
      subst hc
      rw [allocAt]
      unfold splitAlloc
      simp only [partitionFrom, Bool.and_eq_true, beq_iff_eq] at h
      obtain ⟨h1, h2⟩ := h
      by_cases hlt : size < c.size
      · rw [if_pos hlt]
        simp only [List.cons_append, List.nil_append, partitionFrom, Bool.and_eq_true,
          beq_iff_eq]
        refine ⟨by simpa using h1, by omega, ?_⟩
        have : a + size + (c.size - size) = a + c.size := by omega
        rw [this]
        exact h2
      · rw [if_neg hlt]
        simp only [List.cons_append, List.nil_append, partitionFrom, Bool.and_eq_true,
          beq_iff_eq]
        exact ⟨by simpa using h1, h2⟩
    | succ i' =>
      rw [allocAt]
      simp only [partitionFrom, Bool.and_eq_true, beq_iff_eq] at h ⊢
      exact ⟨h.1, ih i' b (a + c.size) total (by simpa using hget) hsz h.2⟩

theorem allocAt_noAdj (pid : String) (size : Nat) :
    ∀ (blocks : List MemoryBlock) (i : Nat) (b : MemoryBlock),
      blocks.get? i = some b → b.is_allocated = false →
      noAdjacentFree blocks = true →
      noAdjacentFree (allocAt pid size i blocks) = true := by
  intro blocks
  induction blocks with
  | nil => intro i b hget; cases hget
  | cons c rest ih =>
    intro i b hget hfree h
    cases i with
    | zero =>
      have hc : c = b := by simpa using hget
      subst hc
      rw [allocAt]
      unfold splitAlloc
      by_cases hlt : size < c.size
      · rw [if_pos hlt]
        simp only [List.cons_append, List.nil_append]
        rw [noAdjacentFree_cons_iff]
        constructor
        · rw [noAdjacentFree_cons_iff]
          refine ⟨noAdjacentFree_tail c rest h, ?_⟩
          intro y hy
          rcases (noAdjacentFree_cons_iff c rest).mp h with ⟨_, hpair⟩
          rcases hpair y hy with hl | hr
          · rw [hfree] at hl; cases hl
          · exact Or.inr hr
        · intro y _
          exact Or.inl rfl
      · rw [if_neg hlt]
        simp only [List.cons_append, List.nil_append]
        rw [noAdjacentFree_cons_iff]
        refine ⟨noAdjacentFree_tail c rest h, ?_⟩
        intro y _
        exact Or.inl rfl
    | succ i' =>
      rw [allocAt]
      rw [noAdjacentFree_cons_iff]
      have hrest : noAdjacentFree rest = true := noAdjacentFree_tail c rest h
      refine ⟨ih i' b (by simpa using hget) hfree hrest, ?_⟩
      intro y' hy'
      rcases allocAt_head pid size rest i' y' hy' with ⟨y, hy, hcase⟩
      rcases hcase with halloc | heq
      · exact Or.inr halloc
      · subst heq
        rcases (noAdjacentFree_cons_iff c rest).mp h with ⟨_, hpair⟩
        exact hpair y' hy

theorem allocAt_allpos (pid : String) (size : Nat) :
    ∀ (blocks : List MemoryBlock) (i : Nat) (b : MemoryBlock),
      blocks.get? i = some b → 0 < size → size ≤ b.size →
      allSizesPos blocks = true →
      allSizesPos (allocAt pid size i blocks) = true := by
  intro blocks
  induction blocks with
  | nil => intro i b hget; cases hget
  | cons c rest ih =>
    intro i b hget hpos hsz h
    unfold allSizesPos at h
    rw [List.all_cons, Bool.and_eq_true] at h
    cases i with
    | zero =>
      have hc : c = b := by simpa using hget
      subst hc
      rw [allocAt]
      unfold splitAlloc
      by_cases hlt : size < c.size
      · rw [if_pos hlt]
        unfold allSizesPos
        simp only [List.cons_append, List.nil_append, List.all_cons, Bool.and_eq_true,
          decide_eq_true_eq]
        exact ⟨hpos, by simp; omega, h.2⟩
      · rw [if_neg hlt]
        unfold allSizesPos
        simp only [List.cons_append, List.nil_append, List.all_cons, Bool.and_eq_true,
          decide_eq_true_eq]
        refine ⟨?_, h.2⟩
        have := h.1
        simpa using this
    | succ i' =>
      rw [allocAt]
      unfold allSizesPos
      rw [List.all_cons, Bool.and_eq_true]
      exact ⟨h.1, ih i' b (by simpa using hget) hpos hsz h.2⟩

/-- Request preserves all three invariants whenever the requested size is
positive, for every strategy character. -/
theorem requestMemory_invariants (pid : String) (size : Nat) (strategy : Char)
    (total : Nat) (blocks : List MemoryBlock) (hpos : 0 < size)
    (hinv : invariants total blocks) :
    invariants total (requestMemory pid size strategy blocks).2 := by
  cases hsel : selectBlock strategy size blocks with
  | none =>
    unfold requestMemory
    rw [hsel]
    exact hinv
  | some i =>
    rcases selectBlock_sound strategy size blocks i hsel with ⟨b, hb, hfree, hsz⟩
    unfold requestMemory
    rw [hsel]
    obtain ⟨h1, h2, h3⟩ := hinv
    exact ⟨allocAt_partition pid size blocks i b 0 total hb hsz h1,
      allocAt_noAdj pid size blocks i b hb hfree h2,
      allocAt_allpos pid size blocks i b hb hpos hsz h3⟩

theorem partitionFrom_append_of :
    ∀ (xs ys : List MemoryBlock) (a mid total : Nat),
      partitionFrom a mid xs = true → partitionFrom mid total ys = true →
      partitionFrom a total (xs ++ ys) = true := by
  intro xs
  induction xs with
  | nil =>
    intro ys a mid total h1 h2
    have : a = mid := by simpa [partitionFrom] using h1
    subst this
    exact h2
  | cons b rest ih =>
    intro ys a mid total h1 h2
    simp only [partitionFrom, Bool.and_eq_true, beq_iff_eq] at h1 ⊢
    exact ⟨h1.1, ih ys (a + b.size) mid total h1.2 h2⟩

theorem repackOwned_partition :
    ∀ (l : List MemoryBlock) (c : Nat),
      partitionFrom c (c + sumSizes l) (repackOwned c l) = true := by
  intro l
  induction l with
  | nil => intro c; simp [repackOwned, partitionFrom, sumSizes]
  | cons b rest ih =>
    intro c
    simp only [repackOwned, partitionFrom, Bool.and_eq_true, beq_iff_eq]
    refine ⟨trivial, ?_⟩
    have := ih (c + b.size)
    have harith : c + b.size + sumSizes rest = c + sumSizes (b :: rest) := by
      rw [sumSizes_cons]
      omega
    rw [harith] at this
    exact this

theorem repackOwned_all_alloc :
    ∀ (l : List MemoryBlock) (c : Nat),
      (∀ b ∈ l, b.is_allocated = true) →
      ∀ b ∈ repackOwned c l, b.is_allocated = true := by
  intro l
  induction l with
  | nil => intro c _ b hb; cases hb
  | cons x rest ih =>
    intro c h b hb
    rcases List.mem_cons.mp hb with rfl | hb'
    · exact h x (List.mem_cons_self x rest)
    · exact ih (c + x.size) (fun y hy => h y (List.mem_cons_of_mem x hy)) b hb'

theorem noAdj_concat_all_alloc :
    ∀ (xs ys : List MemoryBlock),
      (∀ b ∈ xs, b.is_allocated = true) → noAdjacentFree ys = true →
      noAdjacentFree (xs ++ ys) = true := by
  intro xs
  induction xs with
  | nil => intro ys _ h; exact h
  | cons a rest ih =>
    intro ys h hys
    rw [List.cons_append, noAdjacentFree_cons_iff]
    refine ⟨ih ys (fun y hy => h y (List.mem_cons_of_mem a hy)) hys, ?_⟩
    intro y _
    exact Or.inl (h a (List.mem_cons_self a rest))

theorem repackOwned_allpos :
    ∀ (l : List MemoryBlock) (c : Nat),
      allSizesPos l = true → allSizesPos (repackOwned c l) = true := by
  intro l
  induction l with
  | nil => intro c h; exact h
  | cons b rest ih =>
    intro c h
    unfold allSizesPos at h ⊢
    rw [List.all_cons, Bool.and_eq_true] at h
    rw [repackOwned, List.all_cons, Bool.and_eq_true]
    exact ⟨by simpa using h.1, ih (c + b.size) h.2⟩

theorem allSizesPos_filter (p : MemoryBlock → Bool) :
    ∀ (l : List MemoryBlock),
      allSizesPos l = true → allSizesPos (l.filter p) = true := by
  intro l h
  unfold allSizesPos at h ⊢
  rw [List.all_eq_true] at h ⊢
  intro b hb
  exact h b (List.mem_of_mem_filter hb)

/-- Compaction preserves all three invariants. -/
theorem compactMemory_invariants (total : Nat) (blocks : List MemoryBlock)
    (hinv : invariants total blocks) :
    invariants total (compactMemory total blocks) := by
  obtain ⟨h1, h2, h3⟩ := hinv
  have hsum : sumSizes (blocks.filter (fun b => b.is_allocated)) ≤ total := by
    have ha := partitionFrom_sum blocks 0 total h1
    have hb := sumSizes_filter_le (fun b => b.is_allocated) blocks
    omega
  rw [compactMemory_eq]
  set owned := blocks.filter (fun b => b.is_allocated) with howned
  have hall : ∀ b ∈ owned, b.is_allocated = true := fun b hb => (List.mem_filter.mp hb).2
  have hpos : allSizesPos owned = true := allSizesPos_filter _ blocks h3
  have hrepack_all : ∀ b ∈ repackOwned 0 owned, b.is_allocated = true :=
    repackOwned_all_alloc owned 0 hall
  by_cases hlt : sumSizes owned < total
  · rw [if_pos hlt]
    refine ⟨?_, ?_, ?_⟩
    · refine partitionFrom_append_of _ _ 0 (sumSizes owned) total ?_ ?_
      · have := repackOwned_partition owned 0
        simpa using this
      · simp only [partitionFrom, Bool.and_eq_true, beq_iff_eq]
        constructor
        · trivial
        · show sumSizes owned + (total - sumSizes owned) = total
          omega
    · refine noAdj_concat_all_alloc _ _ hrepack_all ?_
      rfl
    · unfold allSizesPos
      rw [List.all_append, Bool.and_eq_true]
      constructor
      · exact repackOwned_allpos owned 0 hpos
      · have hp2 : (0 : Nat) < total - sumSizes owned := by omega
        simp only [List.all_cons, List.all_nil, Bool.and_true, decide_eq_true_eq]
        exact hp2
  · rw [if_neg hlt, List.append_nil]
    have heq : sumSizes owned = total := by omega
    refine ⟨?_, ?_, ?_⟩
    · have := repackOwned_partition owned 0
      rw [Nat.zero_add, heq] at this
      exact this
    · have := noAdj_concat_all_alloc (repackOwned 0 owned) [] hrepack_all rfl
      simpa using this
    · exact repackOwned_allpos owned 0 hpos

/-- One valid engine call preserves the invariants. -/
theorem applyOp_invariants (total : Nat) (blocks : List MemoryBlock) (op : Op)
    (hop : validOp op) (hinv : invariants total blocks) :
    invariants total (applyOp total blocks op) := by
  cases op with
  | request pid size strategy =>
    exact requestMemory_invariants pid size strategy total blocks hop.1 hinv
  | release pid => exact releaseMemory_invariants pid total blocks hinv
  | compact => exact compactMemory_invariants total blocks hinv

theorem runOps_invariants (total : Nat) :
    ∀ (ops : List Op) (blocks : List MemoryBlock),
      invariants total blocks → (∀ op ∈ ops, validOp op) →
      invariants total (runOps total blocks ops) := by
  intro ops
  induction ops with
  | nil => intro blocks hinv _; exact hinv
  | cons op ops' ih =>
    intro blocks hinv hops
    rw [runOps]
    exact ih (applyOp total blocks op)
      (applyOp_invariants total blocks op (hops op (List.mem_cons_self op ops')) hinv)
      (fun o ho => hops o (List.mem_cons_of_mem op ho))

/-- The freshly initialized allocator satisfies the invariants. -/
theorem initializeMemory_invariants (total : Nat) (htotal : 0 < total) :
    invariants total (initializeMemory total) := by
  refine ⟨?_, rfl, ?_⟩
  · simp [initializeMemory, partitionFrom]
  · simp [initializeMemory, allSizesPos, htotal]

/-- C1: starting from an initialized allocator, every sequence of request
(positive size, strategy `F`, `B` or `W`), release and compact calls keeps
spec invariants 1–3: the blocks tile `[0, total)` in ascending address order,
no two adjacent blocks are both free, and every block size is positive. -/
theorem invariants_always_hold (total : Nat) (htotal : 0 < total) (ops : List Op)
    (hops : ∀ op ∈ ops, validOp op) :
    invariants total (runOps total (initializeMemory total) ops) :=
  runOps_invariants total ops (initializeMemory total)
    (initializeMemory_invariants total htotal) hops

/-- C1 witness: a run with all three operations on a 100-byte memory. -/
theorem invariants_always_hold_witness :
    0 < 100 ∧
      (∀ op ∈ [Op.request "A" 30 'F', Op.request "B" 20 'B', Op.release "A",
        Op.compact], validOp op) ∧
      invariants 100 (runOps 100 (initializeMemory 100)
        [Op.request "A" 30 'F', Op.request "B" 20 'B', Op.release "A", Op.compact]) := by
  refine ⟨by decide, ?_, ?_⟩
  · intro op hop
    simp only [List.mem_cons, List.not_mem_nil, or_false] at hop
    rcases hop with rfl | rfl | rfl | rfl
    · exact ⟨by decide, Or.inl rfl⟩
    · exact ⟨by decide, Or.inr (Or.inl rfl)⟩
    · exact trivial
    · exact trivial
  · apply invariants_always_hold 100 (by decide)
    intro op hop
    simp only [List.mem_cons, List.not_mem_nil, or_false] at hop
    rcases hop with rfl | rfl | rfl | rfl
    · exact ⟨by decide, Or.inl rfl⟩
    · exact ⟨by decide, Or.inr (Or.inl rfl)⟩
    · exact trivial
    · exact trivial

end Alloc
